import Mathlib

/-!
Shallow embedding of `src/lib/claude.ts` (the Sift tag-extraction and
tag-to-phrase matching module).

JavaScript strings are modelled as Lean `String`s; `String.prototype.toLowerCase`
is modelled as per-character ASCII lowercasing (`Char.toLower`), and
`String.prototype.includes` as contiguous-substring occurrence.

The phrase bank (`getPhrases()`, provided by the `embeddings` module and, per
the spec, loaded once and read-only for the process lifetime) is passed to the
matcher as an explicit read-only parameter.

The external Claude API call inside `extractTags` is modelled by an environment
(`ClaudeEnv`) recording the observable outcome of each effectful step: whether
the `ANTHROPIC_API_KEY` credential is present, what `client.messages.create`
returns (or throws), and what `JSON.parse` yields on a given text.
-/

/-- Models `tag.toLowerCase()` / `phrase.toLowerCase()`: per-character lowercasing. -/
def jsToLower (s : String) : String :=
  String.mk (s.data.map Char.toLower)

/-- `matchesAt needle hay` is true when `needle` occurs at the very start of `hay`. -/
def matchesAt : List Char → List Char → Bool
  | [], _ => true
  | _ :: _, [] => false
  | a :: as, b :: bs => a == b && matchesAt as bs

/-- `occursIn needle hay` is true when `needle` occurs contiguously anywhere in `hay`. -/
def occursIn (needle : List Char) : List Char → Bool
  | [] => matchesAt needle []
  | c :: rest => matchesAt needle (c :: rest) || occursIn needle rest

/-- Models `s.includes(sub)`: contiguous substring occurrence. -/
def jsIncludes (s sub : String) : Bool :=
  occursIn sub.data s.data

/-- The canonical tag vocabulary, transcribed from the `TAGS` constant. -/
def TAGS : List String :=
  ["piano", "guitar",
   "sad", "melancholic", "nostalgic", "hopeful", "peaceful", "dark", "lonely",
   "slow", "mellow", "sleepy", "upbeat", "groovy", "bossa nova",
   "vinyl crackle", "ambient", "spacey", "bass-heavy", "minimal",
   "rain", "ocean", "night", "cafe", "winter", "home", "nature", "space",
   "cozy", "warm", "dreamy", "focus", "jazz", "chill"]

/-- A parsed JSON value, as produced by `JSON.parse`. -/
inductive JsValue where
  | str (s : String)
  | num (n : Int)
  | bool (b : Bool)
  | null
  | arr (elems : List JsValue)
  | obj (fields : List (String × JsValue))

/-- One block of `response.content` from the model API. -/
inductive ContentBlock where
  | text (s : String)
  | other

/-- Observable outcome of the effectful steps in `extractTags`:
`hasApiKey` models `process.env.ANTHROPIC_API_KEY` being set; `createResult`
models `client.messages.create` (returning content blocks or throwing);
`parse` models `JSON.parse` (returning a value or throwing `SyntaxError`). -/
structure ClaudeEnv where
  hasApiKey : Bool
  createResult : String → Except String (List ContentBlock)
  parse : String → Except String JsValue

/-- Models `response.content[0].type === 'text' ? response.content[0].text : ''`.
On empty content, `response.content[0]` is `undefined` and the property access
throws a `TypeError`. -/
def getText : List ContentBlock → Except String String
  | [] => Except.error "TypeError"
  | ContentBlock.text s :: _ => Except.ok s
  | ContentBlock.other :: _ => Except.ok ""

/-- Models the filter predicate `(t) => typeof t === 'string' && TAG_SET.has(t)`:
keeps a parsed element only when it is a string belonging (case-sensitively)
to the vocabulary. `TAG_SET = new Set(TAGS)` has the same membership as `TAGS`. -/
def isValidTag : JsValue → Option String
  | JsValue.str s => if s ∈ TAGS then some s else none
  | _ => none

/-- The body of `extractTags` up to (but not including) the surrounding
`try/catch`: each fallible step is sequenced in `Except`. -/
def extractTagsBody (env : ClaudeEnv) (prompt : String) : Except String (List String) :=
  if !env.hasApiKey then Except.ok []
  else
    match env.createResult prompt with
    | Except.error e => Except.error e
    | Except.ok content =>
      match getText content with
      | Except.error e => Except.error e
      | Except.ok text =>
        match env.parse text with
        | Except.error e => Except.error e
        | Except.ok tags =>
          match tags with
          | JsValue.arr elems => Except.ok (elems.filterMap isValidTag)
          | _ => Except.ok []

/-- `extractTags`: the body wrapped in `try/catch`, where the catch branch
returns the empty list. -/
def extractTags (env : ClaudeEnv) (prompt : String) : List String :=
  match extractTagsBody env prompt with
  | Except.ok l => l
  | Except.error _ => []

/-- The per-phrase score of `findClosestPhraseByTags`: the number of tags whose
lowercased form occurs as a substring of the lowercased phrase text. -/
def scorePhrase (tags : List String) (phrase : String) : Nat :=
  tags.countP (fun tag => jsIncludes (jsToLower phrase) (jsToLower tag))

/-- The scan loop of `findClosestPhraseByTags`: `i` is the index of the head of
the remaining phrase list, `bestIndex`/`bestScore` the accumulator variables.
The score is compared with strict `>` (`score > bestScore`), so an equal score
never overwrites the current best. -/
def findAux (tags : List String) : List String → Nat → Int → Nat → Int
  | [], _, bestIndex, _ => bestIndex
  | p :: rest, i, bestIndex, bestScore =>
    if bestScore < scorePhrase tags p then
      findAux tags rest (i + 1) (Int.ofNat i) (scorePhrase tags p)
    else
      findAux tags rest (i + 1) bestIndex bestScore

/-- `findClosestPhraseByTags`, with the phrase bank (`getPhrases()`) passed
explicitly. Starts with `bestIndex = -1`, `bestScore = 0`. -/
def findClosestPhraseByTags (tags : List String) (phrases : List String) : Int :=
  findAux tags phrases 0 (-1) 0

/-! ### Properties of the scan loop -/

/-- If no remaining phrase beats the accumulated best score, the accumulated
best index is returned unchanged. -/
theorem findAux_no_improve (tags : List String) :
    ∀ (phrases : List String) (i : Nat) (bi : Int) (bs : Nat),
      (∀ p ∈ phrases, scorePhrase tags p ≤ bs) →
      findAux tags phrases i bi bs = bi := by
  intro phrases
  induction phrases with
  | nil => intro i bi bs _; rfl
  | cons p rest ih =>
    intro i bi bs h
    have hp : scorePhrase tags p ≤ bs := h p (List.mem_cons_self p rest)
    have hrest : ∀ q ∈ rest, scorePhrase tags q ≤ bs :=
      fun q hq => h q (List.mem_cons_of_mem p hq)
    simp only [findAux, if_neg (Nat.not_lt.mpr hp)]
    exact ih (i + 1) bi bs hrest

/-- The loop returns either the accumulated best index or `i + j` for some
position `j` among the remaining phrases. -/
theorem findAux_range (tags : List String) :
    ∀ (phrases : List String) (i : Nat) (bi : Int) (bs : Nat),
      findAux tags phrases i bi bs = bi ∨
        ∃ j, j < phrases.length ∧ findAux tags phrases i bi bs = Int.ofNat (i + j) := by
  intro phrases
  induction phrases with
  | nil => intro i bi bs; exact Or.inl rfl
  | cons p rest ih =>
    intro i bi bs
    simp only [findAux]
    by_cases hc : bs < scorePhrase tags p
    · rw [if_pos hc]
      right
      rcases ih (i + 1) (Int.ofNat i) (scorePhrase tags p) with h | ⟨j, hj, h⟩
      · exact ⟨0, Nat.succ_pos _, by simpa using h⟩
      · exact ⟨j + 1, Nat.succ_lt_succ hj, by rw [h]; congr 1; omega⟩
    · rw [if_neg hc]
      rcases ih (i + 1) bi bs with h | ⟨j, hj, h⟩
      · exact Or.inl h
      · exact Or.inr ⟨j + 1, Nat.succ_lt_succ hj, by rw [h]; congr 1; omega⟩

/-- If some remaining phrase beats the accumulated best score, the returned
index points at one of the remaining phrases. -/
theorem findAux_improve (tags : List String) :
    ∀ (phrases : List String) (i : Nat) (bi : Int) (bs : Nat),
      (∃ p ∈ phrases, bs < scorePhrase tags p) →
      ∃ j, j < phrases.length ∧ findAux tags phrases i bi bs = Int.ofNat (i + j) := by
  intro phrases
  induction phrases with
  | nil => intro i bi bs h; exact absurd h (by simp)
  | cons p rest ih =>
    intro i bi bs h
    simp only [findAux]
    by_cases hc : bs < scorePhrase tags p
    · rw [if_pos hc]
      rcases findAux_range tags rest (i + 1) (Int.ofNat i) (scorePhrase tags p) with
        hr | ⟨j, hj, hr⟩
      · exact ⟨0, Nat.succ_pos _, by simpa using hr⟩
      · exact ⟨j + 1, Nat.succ_lt_succ hj, by rw [hr]; congr 1; omega⟩
    · rw [if_neg hc]
      obtain ⟨q, hq, hqs⟩ := h
      rcases List.mem_cons.mp hq with rfl | hq'
      · exact absurd hqs hc
      · obtain ⟨j, hj, hr⟩ := ih (i + 1) bi bs ⟨q, hq', hqs⟩
        exact ⟨j + 1, Nat.succ_lt_succ hj, by rw [hr]; congr 1; omega⟩

/-- First-argmax characterisation of the scan loop: if position `j` strictly
beats the accumulated best score, strictly beats every earlier position, and is
at least as good as every later position, the loop returns `i + j`. -/
theorem findAux_first (tags : List String) :
    ∀ (phrases : List String) (i : Nat) (bi : Int) (bs : Nat) (j : Nat)
      (hj : j < phrases.length),
      bs < scorePhrase tags (phrases.get ⟨j, hj⟩) →
      (∀ k (hk : k < phrases.length), k < j →
        scorePhrase tags (phrases.get ⟨k, hk⟩) < scorePhrase tags (phrases.get ⟨j, hj⟩)) →
      (∀ k (hk : k < phrases.length), j < k →
        scorePhrase tags (phrases.get ⟨k, hk⟩) ≤ scorePhrase tags (phrases.get ⟨j, hj⟩)) →
      findAux tags phrases i bi bs = Int.ofNat (i + j) := by
  intro phrases
  induction phrases with
  | nil => intro i bi bs j hj; exact absurd hj (Nat.not_lt_zero j)
  | cons p rest ih =>
    intro i bi bs j hj hb hbefore hafter
    match j with
    | 0 =>
      have hb0 : bs < scorePhrase tags p := hb
      have hrest : ∀ q ∈ rest, scorePhrase tags q ≤ scorePhrase tags p := by
        intro q hq
        obtain ⟨k, hk, rfl⟩ := List.mem_iff_get.mp hq
        exact hafter (k + 1) (Nat.succ_lt_succ k.isLt) (Nat.succ_pos k)
      simp only [findAux, if_pos hb0]
      rw [findAux_no_improve tags rest (i + 1) (Int.ofNat i) (scorePhrase tags p) hrest]
      simp
    | j' + 1 =>
      have hj' : j' < rest.length := Nat.lt_of_succ_lt_succ hj
      have hb' : bs < scorePhrase tags (rest.get ⟨j', hj'⟩) := hb
      have hbefore' : ∀ k (hk : k < rest.length), k < j' →
          scorePhrase tags (rest.get ⟨k, hk⟩) < scorePhrase tags (rest.get ⟨j', hj'⟩) :=
        fun k hk hkj =>
          hbefore (k + 1) (Nat.succ_lt_succ hk) (Nat.succ_lt_succ hkj)
      have hafter' : ∀ k (hk : k < rest.length), j' < k →
          scorePhrase tags (rest.get ⟨k, hk⟩) ≤ scorePhrase tags (rest.get ⟨j', hj'⟩) :=
        fun k hk hkj =>
          hafter (k + 1) (Nat.succ_lt_succ hk) (Nat.succ_lt_succ hkj)
      have hp : scorePhrase tags p < scorePhrase tags (rest.get ⟨j', hj'⟩) :=
        hbefore 0 (Nat.succ_pos _) (Nat.succ_pos _)
      simp only [findAux]
      by_cases hc : bs < scorePhrase tags p
      · rw [if_pos hc]
        rw [ih (i + 1) (Int.ofNat i) (scorePhrase tags p) j' hj' hp hbefore' hafter']
        congr 1
        omega
      · rw [if_neg hc]
        rw [ih (i + 1) bi bs j' hj' hb' hbefore' hafter']
        congr 1
        omega

/-- The score only depends on the lowercased tags and the lowercased phrase. -/
theorem scorePhrase_congr (tags tagsB : List String) (p q : String)
    (ht : tags.map jsToLower = tagsB.map jsToLower)
    (hp : jsToLower p = jsToLower q) :
    scorePhrase tags p = scorePhrase tagsB q := by
  unfold scorePhrase
  have h1 : tags.countP (fun tag => jsIncludes (jsToLower p) (jsToLower tag))
      = (tags.map jsToLower).countP (fun t => jsIncludes (jsToLower p) t) := by
    rw [List.countP_map]
    rfl
  have h2 : tagsB.countP (fun tag => jsIncludes (jsToLower q) (jsToLower tag))
      = (tagsB.map jsToLower).countP (fun t => jsIncludes (jsToLower q) t) := by
    rw [List.countP_map]
    rfl
  rw [h1, h2, ht, hp]

/-- The scan loop only depends on the lowercased tags and lowercased phrases. -/
theorem findAux_congr (tags tagsB : List String)
    (ht : tags.map jsToLower = tagsB.map jsToLower) :
    ∀ (phrases phrasesB : List String),
      phrases.map jsToLower = phrasesB.map jsToLower →
      ∀ (i : Nat) (bi : Int) (bs : Nat),
        findAux tags phrases i bi bs = findAux tagsB phrasesB i bi bs := by
  intro phrases
  induction phrases with
  | nil =>
    intro phrasesB hp i bi bs
    have : phrasesB = [] := by simpa using hp.symm
    subst this
    rfl
  | cons p rest ih =>
    intro phrasesB hp i bi bs
    match phrasesB with
    | [] => exact absurd hp (by simp)
    | q :: restB =>
      simp only [List.map_cons, List.cons.injEq] at hp
      have hs : scorePhrase tags p = scorePhrase tagsB q :=
        scorePhrase_congr tags tagsB p q ht hp.1
      simp only [findAux, hs]
      by_cases hc : bs < scorePhrase tagsB q
      · rw [if_pos hc, if_pos hc]
        exact ih restB hp.2 (i + 1) (Int.ofNat i) (scorePhrase tagsB q)
      · rw [if_neg hc, if_neg hc]
        exact ih restB hp.2 (i + 1) bi bs

/-! ### The claims -/

/-- C1: `findClosestPhraseByTags` returns the index of the phrase whose score
(the count of tags whose lowercased form occurs as a substring of the
lowercased phrase text) is strictly highest; on ties the first phrase in bank
order wins, so position `j` is returned exactly when it has positive score,
strictly beats every earlier phrase, and is at least as good as every later
phrase. -/
theorem findClosestPhraseByTags_first_argmax (tags phrases : List String)
    (j : Nat) (hj : j < phrases.length)
    (hpos : 0 < scorePhrase tags (phrases.get ⟨j, hj⟩))
    (hbefore : ∀ k (hk : k < phrases.length), k < j →
      scorePhrase tags (phrases.get ⟨k, hk⟩) < scorePhrase tags (phrases.get ⟨j, hj⟩))
    (hafter : ∀ k (hk : k < phrases.length), j < k →
      scorePhrase tags (phrases.get ⟨k, hk⟩) ≤ scorePhrase tags (phrases.get ⟨j, hj⟩)) :
    findClosestPhraseByTags tags phrases = Int.ofNat j := by
  unfold findClosestPhraseByTags
  rw [findAux_first tags phrases 0 (-1) 0 j hj hpos hbefore hafter]
  simp

/-- Witness for C1: on the bank `["upbeat guitar jam", "rainy piano night"]`
with tags `["rain", "piano"]`, position 1 (score 2) is the unique argmax and is
returned. -/
theorem findClosestPhraseByTags_first_argmax_witness :
    findClosestPhraseByTags ["rain", "piano"] ["upbeat guitar jam", "rainy piano night"]
      = Int.ofNat 1 :=
  findClosestPhraseByTags_first_argmax ["rain", "piano"]
    ["upbeat guitar jam", "rainy piano night"] 1 (by decide) (by decide)
    (by decide) (by decide)

/-- C2: the matcher returns the sentinel `-1` exactly when every phrase scores
0 (equivalently, the best score is 0); in particular an empty tag list gives
every phrase score 0, hence `-1`, on every phrase bank. -/
theorem findClosestPhraseByTags_sentinel (tags phrases : List String) :
    (findClosestPhraseByTags tags phrases = -1 ↔
      ∀ p ∈ phrases, scorePhrase tags p = 0) ∧
    findClosestPhraseByTags ([] : List String) phrases = -1 := by
  constructor
  · constructor
    · intro h
      by_contra hne
      push_neg at hne
      obtain ⟨p, hp, hps⟩ := hne
      obtain ⟨j, _, hr⟩ := findAux_improve tags phrases 0 (-1) 0
        ⟨p, hp, Nat.pos_of_ne_zero hps⟩
      rw [findClosestPhraseByTags, hr] at h
      exact absurd h (by simp)
    · intro h
      exact findAux_no_improve tags phrases 0 (-1) 0
        (fun p hp => Nat.le_of_eq (h p hp))
  · exact findAux_no_improve [] phrases 0 (-1) 0
      (fun p _ => Nat.le_of_eq (by simp [scorePhrase]))

/-- Witness for C2: tags `["space"]` score 0 on the bank `["rainy night"]`,
so the sentinel `-1` is returned. -/
theorem findClosestPhraseByTags_sentinel_witness :
    findClosestPhraseByTags ["space"] ["rainy night"] = -1 :=
  (findClosestPhraseByTags_sentinel ["space"] ["rainy night"]).1.mpr (by decide)

/-- C3: `extractTags` never raises: it is a total function of the outcome
environment, and on every failure outcome — missing credential, a throwing
model call, an empty content array (whose indexing throws), invalid JSON, or
a non-array JSON value — it resolves to the empty list. -/
theorem extractTags_fails_closed (env : ClaudeEnv) (prompt : String) :
    (∃ l, extractTags env prompt = l) ∧
    (env.hasApiKey = false → extractTags env prompt = []) ∧
    (∀ e, env.createResult prompt = Except.error e → extractTags env prompt = []) ∧
    (env.createResult prompt = Except.ok [] → extractTags env prompt = []) ∧
    (∀ content text e, env.createResult prompt = Except.ok content →
      getText content = Except.ok text → env.parse text = Except.error e →
      extractTags env prompt = []) ∧
    (∀ content text j, env.createResult prompt = Except.ok content →
      getText content = Except.ok text → env.parse text = Except.ok j →
      (∀ elems, j ≠ JsValue.arr elems) → extractTags env prompt = []) := by
  refine ⟨⟨extractTags env prompt, rfl⟩, ?_, ?_, ?_, ?_, ?_⟩
  · intro h
    simp [extractTags, extractTagsBody, h]
  · intro e h
    by_cases hk : env.hasApiKey
    · simp [extractTags, extractTagsBody, hk, h]
    · simp [extractTags, extractTagsBody, hk]
  · intro h
    by_cases hk : env.hasApiKey
    · simp [extractTags, extractTagsBody, hk, h, getText]
    · simp [extractTags, extractTagsBody, hk]
  · intro content text e hc hg hp
    by_cases hk : env.hasApiKey
    · simp [extractTags, extractTagsBody, hk, hc, hg, hp]
    · simp [extractTags, extractTagsBody, hk]
  · intro content text j hc hg hp hj
    by_cases hk : env.hasApiKey
    · cases j with
      | arr elems => exact absurd rfl (hj elems)
      | str s => simp [extractTags, extractTagsBody, hk, hc, hg, hp]
      | num n => simp [extractTags, extractTagsBody, hk, hc, hg, hp]
      | bool b => simp [extractTags, extractTagsBody, hk, hc, hg, hp]
      | null => simp [extractTags, extractTagsBody, hk, hc, hg, hp]
      | obj fields => simp [extractTags, extractTagsBody, hk, hc, hg, hp]
    · simp [extractTags, extractTagsBody, hk]

/-- An environment in which the model replies with text that is not valid
JSON, so `JSON.parse` throws. -/
def env0 : ClaudeEnv where
  hasApiKey := true
  createResult := fun _ => Except.ok [ContentBlock.text "not json"]
  parse := fun _ => Except.error "SyntaxError: Unexpected token"

/-- Witness for C3: with an invalid-JSON model reply, `extractTags`
resolves to the empty list. -/
theorem extractTags_fails_closed_witness :
    extractTags env0 "lofi beats for a rainy night" = [] :=
  (extractTags_fails_closed env0 "lofi beats for a rainy night").2.2.2.2.1
    [ContentBlock.text "not json"] "not json" "SyntaxError: Unexpected token"
    rfl rfl rfl

/-- Every element the filter keeps belongs to the vocabulary. -/
theorem isValidTag_mem : ∀ (j : JsValue) (t : String), isValidTag j = some t → t ∈ TAGS := by
  intro j t h
  cases j with
  | str s =>
    simp only [isValidTag] at h
    split at h
    · rename_i hs
      injection h with h2
      exact h2 ▸ hs
    · exact absurd h (by simp)
  | num n => exact absurd h (by simp [isValidTag])
  | bool b => exact absurd h (by simp [isValidTag])
  | null => exact absurd h (by simp [isValidTag])
  | arr elems => exact absurd h (by simp [isValidTag])
  | obj fields => exact absurd h (by simp [isValidTag])

/-- Every list the body returns successfully is drawn from the vocabulary. -/
theorem extractTagsBody_ok_subset (env : ClaudeEnv) (prompt : String) (l : List String)
    (hb : extractTagsBody env prompt = Except.ok l) : ∀ t ∈ l, t ∈ TAGS := by
  unfold extractTagsBody at hb
  by_cases hk : env.hasApiKey
  · simp only [hk, Bool.not_true, Bool.false_eq_true, if_false] at hb
    cases hcr : env.createResult prompt with
    | error e => rw [hcr] at hb; exact absurd hb (by simp)
    | ok content =>
      rw [hcr] at hb
      dsimp only at hb
      cases hgt : getText content with
      | error e => rw [hgt] at hb; exact absurd hb (by simp)
      | ok text =>
        rw [hgt] at hb
        dsimp only at hb
        cases hp : env.parse text with
        | error e => rw [hp] at hb; exact absurd hb (by simp)
        | ok tags =>
          rw [hp] at hb
          dsimp only at hb
          cases tags with
          | str s => simp only [Except.ok.injEq] at hb; subst hb; intro t ht; simp at ht
          | num n => simp only [Except.ok.injEq] at hb; subst hb; intro t ht; simp at ht
          | bool b => simp only [Except.ok.injEq] at hb; subst hb; intro t ht; simp at ht
          | null => simp only [Except.ok.injEq] at hb; subst hb; intro t ht; simp at ht
          | obj fields => simp only [Except.ok.injEq] at hb; subst hb; intro t ht; simp at ht
          | arr elems =>
            simp only [Except.ok.injEq] at hb
            subst hb
            intro t ht
            obtain ⟨j, _, hsome⟩ := List.mem_filterMap.mp ht
            exact isValidTag_mem j t hsome
  · simp only [hk] at hb
    simp at hb
    subst hb
    intro t ht
    simp at ht

/-- C4: every string resolved by `extractTags` is a member of the canonical
vocabulary `TAGS`; membership is string equality, hence case-sensitive, and
non-string or out-of-vocabulary elements of the model output are discarded. -/
theorem extractTags_subset_vocab (env : ClaudeEnv) (prompt : String) (t : String)
    (h : t ∈ extractTags env prompt) : t ∈ TAGS := by
  unfold extractTags at h
  cases hb : extractTagsBody env prompt with
  | error e => rw [hb] at h; exact absurd h (by simp)
  | ok l => rw [hb] at h; exact extractTagsBody_ok_subset env prompt l hb t h

/-- An environment whose model reply parses to
`["rain", "Rain", 3, "synthwave"]`: only the exact vocabulary member
`"rain"` survives the filter. -/
def env1 : ClaudeEnv where
  hasApiKey := true
  createResult := fun _ => Except.ok
    [ContentBlock.text "[\"rain\", \"Rain\", 3, \"synthwave\"]"]
  parse := fun _ => Except.ok (JsValue.arr
    [JsValue.str "rain", JsValue.str "Rain", JsValue.num 3, JsValue.str "synthwave"])

/-- Witness for C4: `"rain"` is returned by `extractTags` in `env1` and is
indeed in the vocabulary. -/
theorem extractTags_subset_vocab_witness : "rain" ∈ TAGS :=
  extractTags_subset_vocab env1 "make it rain" "rain" (by decide)

/-- C5: on the bank `["rainy piano night", "upbeat guitar jam"]`, tags
`["rain","piano"]` give index 0 with internal score 2, and tags `["space"]`
give the sentinel `-1`. -/
theorem matcher_concrete_examples :
    findClosestPhraseByTags ["rain", "piano"] ["rainy piano night", "upbeat guitar jam"] = 0 ∧
    scorePhrase ["rain", "piano"] "rainy piano night" = 2 ∧
    findClosestPhraseByTags ["space"] ["rainy piano night", "upbeat guitar jam"] = -1 := by
  refine ⟨by decide, by decide, by decide⟩

/-- C6 (counterexample): the canonical tag vocabulary does not have 33
entries. -/
theorem TAGS_not_33 : TAGS.length ≠ 33 := by decide

/-- C6 (amended): the canonical tag vocabulary is a fixed enumerated set of
exactly 34 distinct terms. -/
theorem TAGS_count : TAGS.length = 34 ∧ TAGS.Nodup := by decide

/-- C7: the matcher is invariant under letter-case changes of its inputs:
replacing tags and phrases by versions with the same lowercasing yields the
same index. -/
theorem findClosestPhraseByTags_case_invariant (tags tagsB phrases phrasesB : List String)
    (ht : tags.map jsToLower = tagsB.map jsToLower)
    (hp : phrases.map jsToLower = phrasesB.map jsToLower) :
    findClosestPhraseByTags tags phrases = findClosestPhraseByTags tagsB phrasesB :=
  findAux_congr tags tagsB ht phrases phrasesB hp 0 (-1) 0

/-- Witness for C7: changing only letter case in the tag and the phrase leaves
the returned index unchanged. -/
theorem findClosestPhraseByTags_case_invariant_witness :
    findClosestPhraseByTags ["RaIn"] ["Piano RAIN"]
      = findClosestPhraseByTags ["rain"] ["piano rain"] :=
  findClosestPhraseByTags_case_invariant ["RaIn"] ["rain"] ["Piano RAIN"] ["piano rain"]
    (by decide) (by decide)

/-- C8: the matcher's scoring performs no vocabulary-membership validation:
for an arbitrary tag string `t` — in particular one outside `TAGS` — prepending
`t` to the tag list adds exactly 1 to a phrase's score when the lowercased `t`
occurs as a substring of the lowercased phrase and 0 otherwise, identically to
a valid tag. -/
theorem scorePhrase_no_vocab_check (t : String) (tags : List String) (phrase : String) :
    scorePhrase (t :: tags) phrase =
      scorePhrase tags phrase +
        (if jsIncludes (jsToLower phrase) (jsToLower t) then 1 else 0) := by
  simp [scorePhrase, List.countP_cons]

/-- C9: the matcher is deterministic — a pure function of the tag list and the
phrase bank: equal inputs yield equal indices. -/
theorem findClosestPhraseByTags_deterministic (tags tagsB phrases phrasesB : List String)
    (ht : tags = tagsB) (hp : phrases = phrasesB) :
    findClosestPhraseByTags tags phrases = findClosestPhraseByTags tagsB phrasesB := by
  rw [ht, hp]

/-- Witness for C9: two runs on equal concrete inputs agree. -/
theorem findClosestPhraseByTags_deterministic_witness :
    findClosestPhraseByTags ["rain"] ["rainy day"]
      = findClosestPhraseByTags ["rain"] ["rainy day"] :=
  findClosestPhraseByTags_deterministic ["rain"] ["rain"] ["rainy day"] ["rainy day"]
    rfl rfl

/-- C10: the matcher returns either the sentinel `-1` or a valid index into
the phrase bank; on an empty bank it returns `-1` for every tag list. -/
theorem findClosestPhraseByTags_range (tags phrases : List String) :
    (findClosestPhraseByTags tags phrases = -1 ∨
      ∃ j, j < phrases.length ∧ findClosestPhraseByTags tags phrases = Int.ofNat j) ∧
    findClosestPhraseByTags tags [] = -1 := by
  constructor
  · rcases findAux_range tags phrases 0 (-1) 0 with h | ⟨j, hj, h⟩
    · exact Or.inl h
    · exact Or.inr ⟨j, hj, by simpa using h⟩
  · rfl
